import Mathlib

/-!
Verification of the autotrader backtesting engine.

This file gives a shallow embedding, in Lean, of the parts of the Go
code base that the specification talks about:

* the `TestBroker` matching engine (`unnamed/part_004`): per-tick order
  fills, position triggers (take-profit, stop-loss, trailing stop),
  bid/ask quoting, NAV accounting and position closing;
* the legacy `Trader` convenience operations `Buy`/`Sell` and
  `closeOrdersAndPositions` (`unnamed/part_012`);
* `RollingSeries.Value`/`Mean` (`series.go`);
* `IndexedSeries` (`series_indexed.go`): `insertIndex`/`Insert`,
  `ShiftIndex` and `Sub`, together with the backing key slice and the
  Go `map[I]int` key-to-row map.

Go `float64` arithmetic is modelled with `ℚ` (the usual idealisation:
the claims under study are about exact algebraic relationships, not
rounding). Go maps are modelled as association lists in insertion
order; every map loop in the modelled code either touches pairwise
distinct entries or rebuilds the map from a slice, so iteration order
is immaterial where the code is deterministic.
-/

namespace Autotrader

/-! ## Matching engine state (unnamed/part_004) -/

/-- `OrderCloseType` from `unnamed/part_001`: why a position was closed. -/
inductive OrderCloseType where
  | market
  | stopLoss
  | trailingStop
  | takeProfit
deriving DecidableEq, Repr

/-- `OrderType` from `unnamed/part_001`. -/
inductive OrderType where
  | market
  | limit
  | stop
deriving DecidableEq, Repr

/-- One candle of the broker data frame: we keep the `High`, `Low` and
`Close` columns, the only ones `TestBroker.Tick`, `Bid` and `Ask` read. -/
structure Candle where
  high : ℚ
  low : ℚ
  close : ℚ
deriving DecidableEq, Repr

/-- `TestPosition` (unnamed/part_004). The `id`, `leverage` and `time`
fields are omitted: no claim mentions them and no modelled operation
reads them. `closeType` is `none` while the Go string field is still
its zero value `""`. -/
structure TestPosition where
  closed : Bool
  entryPrice : ℚ
  closePrice : ℚ
  closeType : Option OrderCloseType
  symbol : String
  trailingSL : ℚ
  trailingSLDist : ℚ
  stopLoss : ℚ
  takeProfit : ℚ
  units : ℚ
deriving DecidableEq, Repr

/-- `TestOrder` (unnamed/part_004). `fulfilled` models `position != nil`
(the Go order stores a pointer to the position it opened; the position
itself lives in the broker list in this embedding). -/
structure TestOrder where
  price : ℚ
  symbol : String
  trailingSL : ℚ
  stopLoss : ℚ
  takeProfit : ℚ
  orderType : OrderType
  units : ℚ
  fulfilled : Bool
deriving DecidableEq, Repr

/-- `TestBroker` (unnamed/part_004). `slippage` is the configured
`Slippage` fraction; the random sample drawn by `rand.Float64()` at each
fill is passed explicitly to the operations that fill orders. -/
structure TestBroker where
  cash : ℚ
  spread : ℚ
  slippage : ℚ
  data : List Candle
  candleCount : ℕ
  orders : List TestOrder
  positions : List TestPosition
  spreadCollectedUSD : ℚ
deriving DecidableEq, Repr

namespace TestBroker

/-- `CandleIndex`: `Max(b.candleCount-1, 0)` (ℕ subtraction already
truncates at zero). -/
def CandleIndex (b : TestBroker) : ℕ := b.candleCount - 1

/-- Current candle. All modelled scenarios keep `CandleIndex` in range;
the `getD` default stands for the zero values the Go accessors return
out of range. -/
def currentCandle (b : TestBroker) : Candle :=
  b.data.getD b.CandleIndex ⟨0, 0, 0⟩

/-- `Bid` returns the close of the current candle. -/
def Bid (b : TestBroker) : ℚ := b.currentCandle.close

/-- `Ask` returns the close of the current candle plus the spread. -/
def Ask (b : TestBroker) : ℚ := b.currentCandle.close + b.spread

/-- `Price`: ask when buying, bid when selling. -/
def Price (b : TestBroker) (wantToBuy : Bool) : ℚ :=
  if wantToBuy then b.Ask else b.Bid

end TestBroker

namespace TestPosition

/-- `TestPosition.close(atPrice, closeType)`: returns the updated
position together with the cash credited to the broker
(`p.Value()` of the now-closed position, i.e. `atPrice * units`) and
the spread collected (`spread * units`). A closed position is left
untouched and credits nothing. -/
def close (spread : ℚ) (p : TestPosition) (atPrice : ℚ)
    (closeType : OrderCloseType) : TestPosition × ℚ × ℚ :=
  if p.closed then (p, 0, 0)
  else
    ({ p with closed := true, closePrice := atPrice, closeType := some closeType },
      atPrice * p.units, spread * p.units)

/-- `EntryValue`. -/
def EntryValue (p : TestPosition) : ℚ := p.entryPrice * p.units

/-- `Value`: closed positions are valued at the close price, open ones
at the current price on their exit side. -/
def Value (b : TestBroker) (p : TestPosition) : ℚ :=
  if p.closed then p.closePrice * p.units
  else b.Price (decide (0 < p.units)) * p.units

/-- `PL`. -/
def PL (b : TestBroker) (p : TestPosition) : ℚ := p.Value b - p.EntryValue

end TestPosition

namespace TestBroker

/-- The body of the position loop of `TestBroker.Tick` for a single
position: ratchet the trailing stop, then test take-profit, then
stop-loss or trailing stop (mutually exclusive). Returns the updated
position, the cash credited and the spread collected. -/
def tickPosition (high low bid ask spread : ℚ) (p : TestPosition) :
    TestPosition × ℚ × ℚ :=
  if p.closed then (p, 0, 0)
  else
    -- price := b.Price("", p.units < 0) — buy side for shorts.
    let price : ℚ := if p.units < 0 then ask else bid
    let p1 : TestPosition :=
      if 0 < p.trailingSLDist then
        { p with trailingSL := max p.trailingSL (price - p.trailingSLDist) }
      else p
    if 0 < p1.takeProfit ∧
        ((0 < p1.units ∧ p1.takeProfit ≤ high) ∨ (p1.units < 0 ∧ low ≤ p1.takeProfit)) then
      p1.close spread p1.takeProfit OrderCloseType.takeProfit
    else if 0 < p1.stopLoss then
      if (0 < p1.units ∧ low ≤ p1.stopLoss) ∨ (p1.units < 0 ∧ p1.stopLoss ≤ high) then
        p1.close spread p1.stopLoss OrderCloseType.stopLoss
      else (p1, 0, 0)
    else if 0 < p1.trailingSL then
      if (0 < p1.units ∧ low ≤ p1.trailingSL) ∨ (p1.units < 0 ∧ p1.trailingSL ≤ high) then
        p1.close spread p1.trailingSL OrderCloseType.trailingStop
      else (p1, 0, 0)
    else (p1, 0, 0)

/-- The position loop of `TestBroker.Tick`. Each iteration of the Go
loop mutates one position in place and accumulates into `b.Cash` and
`b.spreadCollectedUSD`; the loop body reads only the candle data and
the position itself, so the loop is a map over the positions plus the
sum of the accumulated deltas. -/
def tickPositions (b : TestBroker) : TestBroker :=
  let rs := b.positions.map
    (tickPosition b.currentCandle.high b.currentCandle.low b.Bid b.Ask b.spread)
  { b with
    positions := rs.map Prod.fst,
    cash := b.cash + (rs.map fun r => r.2.1).sum,
    spreadCollectedUSD := b.spreadCollectedUSD + (rs.map fun r => r.2.2).sum }

/-- The trigger test of the order loop of `TestBroker.Tick`: limit and
stop orders fill once the candle range `[low, high]` contains the
requested price (the two branches in the Go code perform the same
interval test). A pending market order cannot occur (market orders are
filled at placement; the Go code panics on that branch). -/
def orderTriggered (high low : ℚ) (o : TestOrder) : Bool :=
  match o.orderType with
  | OrderType.limit => decide (low ≤ o.price) && decide (o.price ≤ high)
  | OrderType.stop => decide (o.price ≤ high) && decide (low ≤ o.price)
  | OrderType.market => false

end TestBroker

/-- `TestOrder.fulfill(atPrice)`: `r` is the `rand.Float64()` sample in
`[0, 1)`; the fill price is adjusted by `slip − slip/2` where
`slip = r * Slippage * atPrice`. Exactly one of the position's
`trailingSLDist`/`stopLoss` is taken from the order. Returns the
fulfilled order and the freshly opened position (the caller debits
`EntryValue` from the broker's cash and appends the position). -/
def TestOrder.fulfill (slippageCfg r : ℚ) (o : TestOrder) (atPrice : ℚ) :
    TestOrder × TestPosition :=
  let slip := r * slippageCfg * atPrice
  let atP := atPrice + (slip - slip / 2)
  ({ o with fulfilled := true },
    { closed := false, entryPrice := atP, closePrice := 0, closeType := none,
      symbol := o.symbol, trailingSL := 0,
      trailingSLDist := if 0 < o.trailingSL then o.trailingSL else 0,
      stopLoss := if 0 < o.trailingSL then 0 else o.stopLoss,
      takeProfit := o.takeProfit, units := o.units })

namespace TestBroker

/-- One iteration of the order loop of `TestBroker.Tick`: an already
fulfilled order is passed over; a pending order whose trigger the
candle range covers is fulfilled at its requested price (opening a
position and debiting its entry value); any other pending order is
kept. `rs i` is the slippage sample for the order at list position
`i`. -/
def tickOrdersStep (high low slippage : ℚ) (rs : ℕ → ℚ)
    (acc : List TestOrder × List TestPosition × ℚ) (io : ℕ × TestOrder) :
    List TestOrder × List TestPosition × ℚ :=
  if io.2.fulfilled then (acc.1 ++ [io.2], acc.2.1, acc.2.2)
  else if orderTriggered high low io.2 then
    let fp := io.2.fulfill slippage (rs io.1) io.2.price
    (acc.1 ++ [fp.1], acc.2.1 ++ [fp.2], acc.2.2 + fp.2.EntryValue)
  else (acc.1 ++ [io.2], acc.2.1, acc.2.2)

/-- The order loop of `TestBroker.Tick`, a fold of `tickOrdersStep`
over the indexed order list. Freshly opened positions are appended to
the position list (so the position loop, which runs afterwards, sees
them on the same tick). -/
def tickOrders (rs : ℕ → ℚ) (b : TestBroker) : TestBroker :=
  let r := b.orders.enum.foldl
    (tickOrdersStep b.currentCandle.high b.currentCandle.low b.slippage rs) ([], [], 0)
  { b with
    orders := r.1,
    positions := b.positions ++ r.2.1,
    cash := b.cash - r.2.2 }

/-- `TestBroker.Tick`: update pending orders first, then the positions
(including any opened by this tick's fills). -/
def Tick (rs : ℕ → ℚ) (b : TestBroker) : TestBroker :=
  tickPositions (tickOrders rs b)

/-- `TestBroker.Advance`: move to the next candle (bounded by the data
length) and run `Tick`. -/
def Advance (rs : ℕ → ℚ) (b : TestBroker) : TestBroker :=
  Tick rs { b with
    candleCount :=
      if b.candleCount < b.data.length then b.candleCount + 1 else b.candleCount }

/-- `TestBroker.Order`. Zero units are rejected; the data-fetch paths
for a broker without data are not modelled (every embedded broker
carries data). A negative stop-loss argument encodes a trailing-stop
distance. Market orders are fulfilled immediately at the market price,
limit orders immediately when the market price is already at or beyond
the limit; otherwise the order is appended pending. `r` is the slippage
sample for an immediate fill. -/
def Order (r : ℚ) (b : TestBroker) (orderType : OrderType) (symbol : String)
    (units price stopLoss takeProfit : ℚ) : TestBroker × Option TestOrder :=
  if units = 0 then (b, none)
  else
    let trailingSL : ℚ := if stopLoss < 0 then -stopLoss else 0
    let marketPrice := b.Price (decide (0 < units))
    let price1 := if orderType = OrderType.market then marketPrice else price
    let o : TestOrder :=
      { price := price1, symbol := symbol,
        trailingSL := if 0 < trailingSL then trailingSL else 0,
        stopLoss := if 0 < trailingSL then 0 else stopLoss,
        takeProfit := takeProfit, orderType := orderType, units := units,
        fulfilled := false }
    if orderType = OrderType.market ∨
        (orderType = OrderType.limit ∧
          ((0 < units ∧ marketPrice ≤ o.price) ∨ (units < 0 ∧ o.price ≤ marketPrice))) then
      let fp := o.fulfill b.slippage r price1
      ({ b with
          orders := b.orders ++ [fp.1],
          positions := b.positions ++ [fp.2],
          cash := b.cash - fp.2.EntryValue }, some fp.1)
    else
      ({ b with orders := b.orders ++ [o] }, some o)

/-- `TestBroker.NAV`: cash plus the value of all open positions. -/
def NAV (b : TestBroker) : ℚ :=
  b.cash + (b.positions.map fun p => if p.closed then 0 else p.Value b).sum

/-- `TestPosition.Close` on the position at list index `i`: closes it
manually at the current price of its exit side and returns `nil`
unconditionally (the second component; `Close` never reports an
error). -/
def ClosePosition (b : TestBroker) (i : ℕ) : TestBroker × Option String :=
  match b.positions.get? i with
  | none => (b, none)
  | some p =>
    let r := p.close b.spread (b.Price (decide (p.units < 0))) OrderCloseType.market
    ({ b with
        positions := b.positions.set i r.1,
        cash := b.cash + r.2.1,
        spreadCollectedUSD := b.spreadCollectedUSD + r.2.2 }, none)

end TestBroker

namespace Trader

/-- `Trader.closeOrdersAndPositions` (unnamed/part_012). The first loop
calls `Cancel()` on every open order of the symbol; `TestOrder.Cancel`
unconditionally returns `ErrCancelFailed` and mutates nothing, so that
pass leaves the broker unchanged. The second loop closes every open
position of the symbol at the current price of its exit side. -/
def closeOrdersAndPositions (sym : String) (b : TestBroker) : TestBroker :=
  let rs := b.positions.map fun p =>
    if ¬p.closed ∧ p.symbol = sym then
      p.close b.spread (b.Price (decide (p.units < 0))) OrderCloseType.market
    else (p, 0, 0)
  { b with
    positions := rs.map Prod.fst,
    cash := b.cash + (rs.map fun r => r.2.1).sum,
    spreadCollectedUSD := b.spreadCollectedUSD + (rs.map fun r => r.2.2).sum }

/-- `Trader.Buy` (unnamed/part_012): close orders and positions for the
symbol, then place a market buy. -/
def Buy (r : ℚ) (sym : String) (units : ℚ) (b : TestBroker) : TestBroker :=
  ((closeOrdersAndPositions sym b).Order r OrderType.market sym units 0 0 0).1

/-- `Trader.Sell` (unnamed/part_012): close orders and positions for the
symbol, then place a market sell of `-units`. -/
def Sell (r : ℚ) (sym : String) (units : ℚ) (b : TestBroker) : TestBroker :=
  ((closeOrdersAndPositions sym b).Order r OrderType.market sym (-units) 0 0 0).1

end Trader

/-- `Broker.OpenPositions` restricted to one symbol: the open (not yet
closed) positions whose symbol matches. -/
def TestBroker.openPositionsFor (sym : String) (b : TestBroker) : List TestPosition :=
  b.positions.filter fun p => !p.closed && (p.symbol == sym)

/-- A sequence of `Trader.Buy`/`Trader.Sell` calls on one symbol:
`(true, r, u)` is `Buy(u)` with slippage sample `r`, `(false, r, u)` is
`Sell(u)`. -/
def applyCalls (sym : String) : List (Bool × ℚ × ℚ) → TestBroker → TestBroker
  | [], b => b
  | c :: cs, b =>
    applyCalls sym cs
      (if c.1 then Trader.Buy c.2.1 sym c.2.2 b else Trader.Sell c.2.1 sym c.2.2 b)

/-! ## RollingSeries (series.go) -/

/-- The collection loop of `RollingSeries.Value(i)`: walk `j` downward
from `i` while `j > i - period && j >= 0`, prepending `Value(j)` at
each step. The first loop condition bounds the iteration count by
`period`, which is passed here as the remaining-iterations fuel; the
second is the explicit `0 ≤ j` test. The claims under study concern
columns of float values, so rows are `ℚ`. -/
def rollingCollect (data : List ℚ) : ℕ → ℤ → List ℚ → List ℚ
  | 0, _, acc => acc
  | fuel + 1, j, acc =>
    if 0 ≤ j then rollingCollect data fuel (j - 1) (data.getD j.toNat 0 :: acc)
    else acc

/-- `RollingSeries.Value(i)`: the up-to-`period` values ending at row
`i`, or the empty list when `i` is out of range. -/
def rollingValue (period : ℕ) (data : List ℚ) (i : ℕ) : List ℚ :=
  if i < data.length then rollingCollect data period i [] else []

/-- `RollingSeries.Mean` at row `i`: 0 for an empty window, otherwise
the sum of the window values divided by the window length. -/
def rollingMean (period : ℕ) (data : List ℚ) (i : ℕ) : ℚ :=
  let v := rollingValue period data i
  if v = [] then 0 else v.sum / v.length

/-! ## IndexedSeries (series_indexed.go)

The backing `*Series` of an `IndexedSeries` is the concrete dynamic
column of this repository version; its file is not part of the
snapshot (only the older interface-based `series.go` is), so the three
row operations the indexed code calls are modelled from the spec:
`Value(row)` reads the dynamic array, `SetValue(row, val)` overwrites
in place and `Insert(row, val)` splices at the row. The Go
`map[I]int` is modelled as an association list in insertion order. -/

/-- Go map lookup `m[key]`. -/
def mapGet {I : Type _} [DecidableEq I] : List (I × ℕ) → I → Option ℕ
  | [], _ => none
  | (k, v) :: m, key => if k = key then some v else mapGet m key

/-- Go map assignment `m[key] = val`: overwrite the entry in place if
the key is present, otherwise add it. -/
def mapPut {I : Type _} [DecidableEq I] : List (I × ℕ) → I → ℕ → List (I × ℕ)
  | [], key, val => [(key, val)]
  | (k, v) :: m, key, val =>
    if k = key then (k, val) :: m else (k, v) :: mapPut m key val

/-- Go `m[key]++`: a missing key starts from the zero value. -/
def mapIncr {I : Type _} [DecidableEq I] (m : List (I × ℕ)) (key : I) : List (I × ℕ) :=
  mapPut m key ((mapGet m key).getD 0 + 1)

/-- `IndexedSeries[I]`: the sorted key slice `indexes`, the key→row map
`index`, and the backing column `values`. -/
structure IndexedSeries (I : Type _) (V : Type _) where
  indexes : List I
  index : List (I × ℕ)
  values : List V
deriving DecidableEq, Repr

/-- `NewIndexedSeries` with no seed values. -/
def IndexedSeries.empty (I V : Type _) : IndexedSeries I V := ⟨[], [], []⟩

/-- The position `slices.BinarySearch(s.indexes, key)` returns: the
smallest index whose element is not less than `key` (the library's
documented contract on a sorted slice, written as the equivalent linear
scan). -/
def lowerBound {I : Type _} [LinearOrder I] : List I → I → ℕ
  | [], _ => 0
  | x :: xs, key => if x < key then lowerBound xs key + 1 else 0

namespace IndexedSeries

variable {I : Type _} [LinearOrder I] {V : Type _}

/-- `IndexedSeries.insertIndex`: binary-search the insertion row;
an existing key is returned as-is; a new key is recorded in the map,
then either appended or spliced into the key slice, shifting the row
mapping of every later key up by one. -/
def insertIndex (s : IndexedSeries I V) (key : I) : ℕ × Bool × IndexedSeries I V :=
  let idx := lowerBound s.indexes key
  if s.indexes[idx]? = some key then (idx, true, s)
  else
    let index1 := mapPut s.index key idx
    if s.indexes.length ≤ idx then
      (idx, false, { s with indexes := s.indexes ++ [key], index := index1 })
    else
      let indexes1 := s.indexes.insertIdx idx key
      let index2 := (List.range' (idx + 1) (indexes1.length - (idx + 1))).foldl
        (fun m i => mapIncr m (indexes1.getD i key)) index1
      (idx, false, { s with indexes := indexes1, index := index2 })

/-- `IndexedSeries.Insert`: overwrite the value if the key exists,
otherwise splice the value at the insertion row. -/
def Insert (s : IndexedSeries I V) (key : I) (val : V) : IndexedSeries I V :=
  let r := s.insertIndex key
  if r.2.1 then { r.2.2 with values := r.2.2.values.set r.1 val }
  else { r.2.2 with values := r.2.2.values.insertIdx r.1 val }

/-- `IndexedSeries.Row`: the row of the key, or −1 if absent. -/
def Row (s : IndexedSeries I V) (key : I) : ℤ :=
  match mapGet s.index key with
  | some i => (i : ℤ)
  | none => -1

/-- `IndexedSeries.Index`: the key at the row (with negative rows
addressing from the end of the series), or `none` out of bounds. -/
def Index (s : IndexedSeries I V) (row : ℤ) : Option I :=
  let r := if row < 0 then (s.values.length : ℤ) + row else row
  if r < 0 ∨ (s.indexes.length : ℤ) ≤ r then none else s.indexes[r.toNat]?

/-- `IndexedSeries.ValueIndex`: the value stored at the key's row, or
`none` if the key is absent. -/
def ValueIndex (s : IndexedSeries I V) (key : I) : Option V :=
  match mapGet s.index key with
  | none => none
  | some r => s.values[r]?

/-- `IndexedSeries.ShiftIndex(periods, step)` for `periods ≠ 0`:
relabel the key slice in place, rebuild the key→row map from the
relabelled slice, then build the final map by stepping every key of the
rebuilt map once more (as the Go code does). -/
def ShiftIndex (s : IndexedSeries I V) (periods : ℤ) (step : I → ℤ → I) :
    IndexedSeries I V :=
  if periods = 0 then s
  else
    let indexes1 := s.index.foldl (fun arr ki => arr.set ki.2 (step ki.1 periods)) s.indexes
    let index1 := indexes1.enum.foldl (fun m ik => mapPut m ik.2 ik.1) []
    let index2 := index1.foldl (fun m ki => mapPut m (step ki.1 periods) ki.2) []
    { s with indexes := indexes1, index := index2 }

/-- One iteration of the loop of `IndexedSeries.Sub` over `s.index`:
if the other series holds the key, combine the two values — with
`anymath.Divide`, as the Go code does — and store the result at the
key's row; a key the other series lacks leaves the row untouched. -/
def subStep (other : IndexedSeries I ℚ) (vals : List ℚ) (ki : I × ℕ) : List ℚ :=
  match mapGet other.index ki.1 with
  | some otherRow => vals.set ki.2 (vals.getD ki.2 0 / other.values.getD otherRow 0)
  | none => vals

/-- `IndexedSeries.Sub`: the loop over the key→row map entries of `s`,
each shared key combining the two values in place. -/
def Sub (s other : IndexedSeries I ℚ) : IndexedSeries I ℚ :=
  { s with values := s.index.foldl (subStep other) s.values }

end IndexedSeries

/-- Well-formedness of an `IndexedSeries`: the key slice is strictly
ascending, the backing column is row-aligned with it, and the key→row
map is exactly the graph of the key slice. -/
def IndexedSeries.WF {I : Type _} [LinearOrder I] {V : Type _}
    (s : IndexedSeries I V) : Prop :=
  s.indexes.Sorted (· < ·) ∧
  s.values.length = s.indexes.length ∧
  ∀ (k : I) (r : ℕ), mapGet s.index k = some r ↔ s.indexes[r]? = some k

/-! ## Helper lemmas -/

theorem list_set_self {α : Type _} :
    ∀ (l : List α) (i : ℕ) (h : i < l.length), l.set i l[i] = l
  | _ :: _, 0, _ => rfl
  | a :: l, i + 1, h => congrArg (a :: ·) (list_set_self l i (by simpa using h))
  | [], i, h => absurd (by simpa using h : i < 0) (Nat.not_lt_zero i)

theorem tickOrders_data (rs : ℕ → ℚ) (b : TestBroker) :
    (b.tickOrders rs).data = b.data := rfl

theorem tickOrders_candleCount (rs : ℕ → ℚ) (b : TestBroker) :
    (b.tickOrders rs).candleCount = b.candleCount := rfl

theorem tickOrders_spread (rs : ℕ → ℚ) (b : TestBroker) :
    (b.tickOrders rs).spread = b.spread := rfl

theorem tickOrders_currentCandle (rs : ℕ → ℚ) (b : TestBroker) :
    (b.tickOrders rs).currentCandle = b.currentCandle := rfl

theorem tickOrders_Bid (rs : ℕ → ℚ) (b : TestBroker) :
    (b.tickOrders rs).Bid = b.Bid := rfl

theorem tickOrders_Ask (rs : ℕ → ℚ) (b : TestBroker) :
    (b.tickOrders rs).Ask = b.Ask := rfl

/-- `Tick`'s order pass only ever appends freshly opened positions. -/
theorem tickOrders_positions_append (rs : ℕ → ℚ) (b : TestBroker) :
    ∃ newPs, (b.tickOrders rs).positions = b.positions ++ newPs :=
  ⟨_, rfl⟩

/-- A closed position is skipped by the position pass of `Tick`. -/
theorem tickPosition_closed (high low bid ask spread : ℚ) (p : TestPosition)
    (hc : p.closed = true) :
    TestBroker.tickPosition high low bid ask spread p = (p, 0, 0) := by
  simp [TestBroker.tickPosition, hc]

/-! ### C1 and C3: concrete evaluations of the engine -/

/-- C1: the claim states that for a short position with trailing
distance d, the per-tick ratchet is `min(previous, price + d)` and the
trailing stop never moves up for a short. Evaluating the embedded
`Tick` position update on a short position (units = −5) with trailing
distance 2, previous trailing stop 8, candle close 10 and spread 1
(ask = 11): the code applies the same `Max(trailingSL, price − dist)`
formula as for longs and moves the stop UP to `max 8 (11 − 2) = 9`,
against the short holder, where the claim requires
`min 8 (10 + 2) = 8` (never up). The take-profit/stop-loss fields are
unset, the candle range [9.5, 10.5] triggers nothing else. -/
theorem C1_short_trailing_ratchet_moves_against_holder :
    let p : TestPosition :=
      { closed := false, entryPrice := 10, closePrice := 0, closeType := none,
        symbol := "EUR_USD", trailingSL := 8, trailingSLDist := 2,
        stopLoss := 0, takeProfit := 0, units := -5 }
    let r := TestBroker.tickPosition (21/2) (19/2) 10 11 1 p
    r.1.trailingSL = 9 ∧ 8 < r.1.trailingSL ∧
      ¬ r.1.trailingSL = min 8 ((10 : ℚ) + 2) := by
  norm_num [TestBroker.tickPosition, TestPosition.close]

/-- C3: the claim states bid = close − spread. Evaluating the embedded
quoting functions on a broker with spread 2 whose current candle closes
at 10: `Ask` is 12 = close + spread as claimed, but `Bid` is 10 = close,
not 8 = close − spread — the spread is charged on the buy side only. -/
theorem C3_bid_does_not_subtract_spread :
    let b : TestBroker :=
      { cash := 0, spread := 2, slippage := 0,
        data := [⟨11, 9, 10⟩], candleCount := 1,
        orders := [], positions := [], spreadCollectedUSD := 0 }
    b.Ask = 12 ∧ b.Bid = 10 ∧ ¬ b.Bid = 10 - 2 := by
  norm_num [TestBroker.Ask, TestBroker.Bid, TestBroker.currentCandle,
    TestBroker.CandleIndex]


/-! ### C2: take-profit is tested before stop-loss / trailing stop -/

/-- C2: for an open position (long or short) with a take-profit set,
on a tick whose `[low, high]` range covers both the take-profit level
and the active stop-loss or trailing-stop level, the position closes at
the take-profit price with close reason `TakeProfit`; the
stop-loss/trailing-stop branch is skipped (by the `continue`), so the
close reason cannot be `SL`/`TS`. -/
theorem C2_takeprofit_beats_stoploss (high low bid ask spread : ℚ)
    (p : TestPosition) (hopen : p.closed = false) (hu : p.units ≠ 0)
    (htp : 0 < p.takeProfit) (htpLo : low ≤ p.takeProfit) (htpHi : p.takeProfit ≤ high)
    (slLevel : ℚ)
    (hlevel : slLevel = if 0 < p.stopLoss then p.stopLoss else p.trailingSL)
    (hslLo : low ≤ slLevel) (hslHi : slLevel ≤ high) :
    (TestBroker.tickPosition high low bid ask spread p).1.closed = true ∧
    (TestBroker.tickPosition high low bid ask spread p).1.closePrice = p.takeProfit ∧
    (TestBroker.tickPosition high low bid ask spread p).1.closeType =
      some OrderCloseType.takeProfit := by
  have hcond : (0 < p.units ∧ p.takeProfit ≤ high) ∨ (p.units < 0 ∧ low ≤ p.takeProfit) := by
    rcases hu.lt_or_lt with hneg | hpos
    · exact Or.inr ⟨hneg, htpLo⟩
    · exact Or.inl ⟨hpos, htpHi⟩
  by_cases hd : 0 < p.trailingSLDist <;>
    simp [TestBroker.tickPosition, TestPosition.close, hopen, hd, htp, hcond]

/-- Witness for C2: a long position with both the stop-loss (49) and
the take-profit (51) inside the candle range [48, 52] closes at 51 with
reason take-profit. -/
theorem C2_takeprofit_beats_stoploss_witness :
    let p : TestPosition :=
      { closed := false, entryPrice := 50, closePrice := 0, closeType := none,
        symbol := "EUR_USD", trailingSL := 0, trailingSLDist := 0,
        stopLoss := 49, takeProfit := 51, units := 3 }
    (TestBroker.tickPosition 52 48 50 50 0 p).1.closed = true ∧
    (TestBroker.tickPosition 52 48 50 50 0 p).1.closePrice = 51 ∧
    (TestBroker.tickPosition 52 48 50 50 0 p).1.closeType =
      some OrderCloseType.takeProfit :=
  C2_takeprofit_beats_stoploss 52 48 50 50 0 _ rfl (by norm_num) (by norm_num)
    (by norm_num) (by norm_num) 49 (by norm_num) (by norm_num) (by norm_num)

/-! ### C9: closing is effective at most once -/

/-- C9: a position that is already closed is left entirely unchanged by
a repeated manual `Close()` (which still returns `nil`, not an error):
the broker state, including cash, the close price, the close reason and
the closed flag, is exactly the same. Likewise, the per-tick position
pass skips a closed position, contributing zero cash, and the position
survives `Tick` unchanged. -/
theorem C9_close_at_most_once (rs : ℕ → ℚ) (b : TestBroker) (i : ℕ)
    (h : i < b.positions.length) (hc : b.positions[i].closed = true) :
    b.ClosePosition i = (b, none) ∧
    (b.Tick rs).positions[i]? = some b.positions[i] ∧
    TestBroker.tickPosition b.currentCandle.high b.currentCandle.low b.Bid b.Ask
      b.spread b.positions[i] = (b.positions[i], 0, 0) := by
  have htick := tickPosition_closed b.currentCandle.high b.currentCandle.low b.Bid
    b.Ask b.spread b.positions[i] hc
  refine ⟨?_, ?_, htick⟩
  · have hget : b.positions.get? i = some b.positions[i] := by
      rw [List.get?_eq_getElem?]; exact List.getElem?_eq_getElem h
    simp only [TestBroker.ClosePosition, hget]
    simp [TestPosition.close, hc, list_set_self b.positions i h]
  · obtain ⟨newPs, hps⟩ := tickOrders_positions_append rs b
    show ((b.tickOrders rs).tickPositions).positions[i]? = _
    simp only [TestBroker.tickPositions, tickOrders_currentCandle, tickOrders_Bid,
      tickOrders_Ask, tickOrders_spread, hps]
    rw [List.getElem?_map, List.getElem?_map,
      List.getElem?_append_left h, List.getElem?_eq_getElem h]
    simp [htick]

/-- Witness for C9: a broker holding one closed short position; the
repeated close and the tick leave it untouched. -/
theorem C9_close_at_most_once_witness :
    let p : TestPosition :=
      { closed := true, entryPrice := 10, closePrice := 9, closeType := some OrderCloseType.market,
        symbol := "EUR_USD", trailingSL := 0, trailingSLDist := 0,
        stopLoss := 0, takeProfit := 0, units := -2 }
    let b : TestBroker :=
      { cash := 100, spread := 1, slippage := 0,
        data := [⟨11, 9, 10⟩], candleCount := 1,
        orders := [], positions := [p], spreadCollectedUSD := 0 }
    b.ClosePosition 0 = (b, none) ∧
    (b.Tick fun _ => 0).positions[0]? = some b.positions[0] ∧
    TestBroker.tickPosition b.currentCandle.high b.currentCandle.low b.Bid b.Ask
      b.spread b.positions[0] = (b.positions[0], 0, 0) :=
  C9_close_at_most_once (fun _ => 0) _ 0 (by simp) (by rfl)

/-! ### C4: Buy/Sell close positions first; pending orders survive -/

/-- After `closeOrdersAndPositions`, no position of the symbol is still
open. -/
theorem closeOAP_openPositionsFor (sym : String) (b : TestBroker) :
    (Trader.closeOrdersAndPositions sym b).openPositionsFor sym = [] := by
  unfold Trader.closeOrdersAndPositions TestBroker.openPositionsFor
  simp only [List.map_map]
  rw [List.filter_map]
  rw [List.filter_eq_nil_iff.mpr]
  · exact List.map_nil
  · intro p _
    by_cases hc : p.closed = true <;> by_cases hs : p.symbol = sym <;>
      simp [TestPosition.close, hc, hs]

/-- `closeOrdersAndPositions` keeps every position at its list index,
closing it if it was an open position of the symbol. -/
theorem closeOAP_closes_symbol (sym : String) (b : TestBroker) (i : ℕ)
    (h : i < b.positions.length) (hs : b.positions[i].symbol = sym) :
    ∃ p, (Trader.closeOrdersAndPositions sym b).positions[i]? = some p ∧
      p.closed = true := by
  unfold Trader.closeOrdersAndPositions
  simp only [List.map_map]
  rw [List.getElem?_map, List.getElem?_eq_getElem h]
  refine ⟨_, rfl, ?_⟩
  by_cases hc : b.positions[i].closed = true <;>
    simp [TestPosition.close, hc, hs]

/-- `Order` either rejects (zero units), appends a pending order, or
appends a fulfilled order together with exactly one new position. -/
theorem order_positions_cases (r : ℚ) (b : TestBroker) (t : OrderType)
    (sym : String) (units price sl tp : ℚ) :
    (b.Order r t sym units price sl tp).1.positions = b.positions ∨
    ∃ p, (b.Order r t sym units price sl tp).1.positions = b.positions ++ [p] := by
  unfold TestBroker.Order
  by_cases hu : units = 0
  · rw [if_pos hu]; exact Or.inl rfl
  · rw [if_neg hu]
    dsimp only
    repeat' split
    all_goals first
      | exact Or.inr ⟨_, rfl⟩
      | exact Or.inl rfl

/-- Positions present before an `Order` call survive it at their index. -/
theorem order_keeps_positions_at_index (r : ℚ) (b : TestBroker) (t : OrderType)
    (sym : String) (units price sl tp : ℚ) (i : ℕ) (h : i < b.positions.length) :
    (b.Order r t sym units price sl tp).1.positions[i]? = b.positions[i]? := by
  rcases order_positions_cases r b t sym units price sl tp with hsame | ⟨p, happ⟩
  · rw [hsame]
  · rw [happ, List.getElem?_append_left h]

/-- A market `Order` keeps the all-orders-fulfilled invariant: it either
rejects zero units or appends an order that is fulfilled on the spot. -/
theorem order_market_orders_fulfilled (r : ℚ) (b : TestBroker) (sym : String)
    (units : ℚ) (hord : ∀ o ∈ b.orders, o.fulfilled = true) :
    ∀ o ∈ (b.Order r OrderType.market sym units 0 0 0).1.orders,
      o.fulfilled = true := by
  unfold TestBroker.Order
  by_cases hu : units = 0
  · rw [if_pos hu]; exact hord
  · rw [if_neg hu]
    simp only [true_or, if_pos rfl, TestOrder.fulfill]
    intro o ho
    rcases List.mem_append.mp ho with hmem | hmem
    · exact hord o hmem
    · simp only [List.mem_singleton] at hmem
      subst hmem
      rfl

/-- A market `Order` adds at most one open position of the symbol. -/
theorem order_open_le (r : ℚ) (b : TestBroker) (t : OrderType) (sym sym2 : String)
    (units price sl tp : ℚ) :
    ((b.Order r t sym2 units price sl tp).1.openPositionsFor sym).length ≤
      (b.openPositionsFor sym).length + 1 := by
  rcases order_positions_cases r b t sym2 units price sl tp with hsame | ⟨p, happ⟩
  · unfold TestBroker.openPositionsFor
    rw [hsame]
    exact Nat.le_succ _
  · unfold TestBroker.openPositionsFor
    rw [happ, List.filter_append, List.length_append]
    exact Nat.add_le_add_left (List.length_filter_le _ _) _

/-- One `Buy`/`Sell`-shaped step (close everything for the symbol, then
market order) re-establishes the at-most-one-open-position invariant
and keeps every order fulfilled. -/
theorem marketAfterClose_invariant (r : ℚ) (sym : String) (v : ℚ) (b : TestBroker)
    (hord : ∀ o ∈ b.orders, o.fulfilled = true) :
    (∀ o ∈ ((Trader.closeOrdersAndPositions sym b).Order r OrderType.market sym
        v 0 0 0).1.orders, o.fulfilled = true) ∧
    (((Trader.closeOrdersAndPositions sym b).Order r OrderType.market sym
        v 0 0 0).1.openPositionsFor sym).length ≤ 1 := by
  constructor
  · exact order_market_orders_fulfilled r _ sym v hord
  · have h0 := closeOAP_openPositionsFor sym b
    have hle := order_open_le r (Trader.closeOrdersAndPositions sym b)
      OrderType.market sym sym v 0 0 0
    rw [h0] at hle
    simpa using hle

/-- C4 fails as stated: `Buy` does not cancel pending orders, because
`Order.Cancel` unconditionally fails. Concretely: place a limit sell at
2 while the market is at 1 (it stays pending), then call `Buy`; after
the `Buy` the limit order is still open (unfulfilled, never removed),
and it is an order for the traded symbol. -/
theorem C4_pending_order_survives_buy :
    let b0 : TestBroker :=
      { cash := 1000, spread := 0, slippage := 0,
        data := [⟨1, 1, 1⟩], candleCount := 1,
        orders := [], positions := [], spreadCollectedUSD := 0 }
    let b1 := (b0.Order 0 OrderType.limit "EUR_USD" (-1) 2 0 0).1
    let b2 := Trader.Buy 0 "EUR_USD" 1 b1
    ((b1.orders.filter fun o => !o.fulfilled).map fun o => o.symbol) = ["EUR_USD"] ∧
    ((b2.orders.filter fun o => !o.fulfilled).map fun o => o.symbol) = ["EUR_USD"] := by
  have hlm : (OrderType.limit = OrderType.market) = False := by
    simp only [eq_iff_iff, iff_false]
    intro h
    exact OrderType.noConfusion h
  norm_num [hlm, TestBroker.Order, Trader.Buy, Trader.closeOrdersAndPositions,
    TestBroker.Price, TestBroker.Bid, TestBroker.Ask, TestBroker.currentCandle,
    TestBroker.CandleIndex, TestOrder.fulfill, TestPosition.EntryValue]

/-- C4 (amended): `Buy` and `Sell` close every open position of the
traded symbol before issuing the new market order (pending orders are
only sent a `Cancel` that always fails, so they survive); consequently,
after any sequence of `Buy`/`Sell` calls on one symbol starting from a
broker whose orders are all fulfilled and which holds at most one open
position for the symbol, at most one position for that symbol is
open. -/
theorem C4_buy_sell_close_positions_first (r : ℚ) (sym : String) (u : ℚ)
    (b : TestBroker) :
    (∀ i, ∀ h : i < b.positions.length, b.positions[i].symbol = sym →
      ∃ p, (Trader.Buy r sym u b).positions[i]? = some p ∧ p.closed = true) ∧
    (∀ i, ∀ h : i < b.positions.length, b.positions[i].symbol = sym →
      ∃ p, (Trader.Sell r sym u b).positions[i]? = some p ∧ p.closed = true) ∧
    (∀ calls : List (Bool × ℚ × ℚ),
      (∀ o ∈ b.orders, o.fulfilled = true) →
      (b.openPositionsFor sym).length ≤ 1 →
      ((applyCalls sym calls b).openPositionsFor sym).length ≤ 1) := by
  have hclose : ∀ (r2 v : ℚ) (i : ℕ), ∀ h : i < b.positions.length,
      b.positions[i].symbol = sym →
      ∃ p, ((Trader.closeOrdersAndPositions sym b).Order r2 OrderType.market sym
        v 0 0 0).1.positions[i]? = some p ∧ p.closed = true := by
    intro r2 v i h hs
    obtain ⟨p, hp, hpc⟩ := closeOAP_closes_symbol sym b i h hs
    have hlen : i < (Trader.closeOrdersAndPositions sym b).positions.length := by
      unfold Trader.closeOrdersAndPositions
      simpa using h
    refine ⟨p, ?_, hpc⟩
    rw [order_keeps_positions_at_index r2 _ OrderType.market sym v 0 0 0 i hlen]
    exact hp
  refine ⟨fun i h hs => hclose r u i h hs, fun i h hs => hclose r (-u) i h hs, ?_⟩
  have main : ∀ (calls : List (Bool × ℚ × ℚ)) (b2 : TestBroker),
      (∀ o ∈ b2.orders, o.fulfilled = true) →
      (b2.openPositionsFor sym).length ≤ 1 →
      ((applyCalls sym calls b2).openPositionsFor sym).length ≤ 1 := by
    intro calls
    induction calls with
    | nil => intro b2 _ hpos; exact hpos
    | cons c cs ih =>
      intro b2 hord hpos
      show ((applyCalls sym cs _).openPositionsFor sym).length ≤ 1
      rcases hcb : c.1 with hfalse | htrue
      · simp only [hcb, if_neg Bool.false_ne_true]
        obtain ⟨h1, h2⟩ := marketAfterClose_invariant c.2.1 sym (-c.2.2) b2 hord
        exact ih _ h1 h2
      · simp only [hcb, if_pos rfl]
        obtain ⟨h1, h2⟩ := marketAfterClose_invariant c.2.1 sym c.2.2 b2 hord
        exact ih _ h1 h2
  exact fun calls => main calls b

/-- Witness for C4 (amended): a broker holding one open long for the
symbol; a `Buy` closes it at index 0, and a two-call `Buy`-then-`Sell`
sequence leaves at most one open position for the symbol. -/
theorem C4_buy_sell_close_positions_first_witness :
    let p0 : TestPosition :=
      { closed := false, entryPrice := 1, closePrice := 0, closeType := none,
        symbol := "EUR_USD", trailingSL := 0, trailingSLDist := 0,
        stopLoss := 0, takeProfit := 0, units := 2 }
    let bW : TestBroker :=
      { cash := 1000, spread := 0, slippage := 0,
        data := [⟨1, 1, 1⟩], candleCount := 1,
        orders := [], positions := [p0], spreadCollectedUSD := 0 }
    (∃ p, (Trader.Buy 0 "EUR_USD" 2 bW).positions[0]? = some p ∧ p.closed = true) ∧
    ((applyCalls "EUR_USD" [(true, 0, 2), (false, 0, 3)] bW).openPositionsFor
      "EUR_USD").length ≤ 1 := by
  intro p0 bW
  refine ⟨(C4_buy_sell_close_positions_first 0 "EUR_USD" 2 bW).1 0 (by simp) rfl, ?_⟩
  exact (C4_buy_sell_close_positions_first 0 "EUR_USD" 2 bW).2.2
    [(true, 0, 2), (false, 0, 3)] (by simp) (by simp [TestBroker.openPositionsFor])

/-! ### C8: rolling mean over a growing window -/

theorem rollingCollect_neg (data : List ℚ) (fuel : ℕ) (j : ℤ) (acc : List ℚ)
    (hj : j < 0) : rollingCollect data fuel j acc = acc := by
  cases fuel <;> simp [rollingCollect, not_le.mpr hj]

/-- The collection loop of `RollingSeries.Value` gathers exactly the
slice of the last up-to-`fuel` values ending at row `j`. -/
theorem rollingCollect_eq (data : List ℚ) :
    ∀ (fuel : ℕ) (j : ℤ), 0 ≤ j → j.toNat < data.length → ∀ acc,
      rollingCollect data fuel j acc
        = ((data.take (j.toNat + 1)).drop (j.toNat + 1 - fuel)) ++ acc := by
  intro fuel
  induction fuel with
  | zero =>
    intro j _ hj acc
    have hlen : (data.take (j.toNat + 1)).length ≤ j.toNat + 1 - 0 := by
      simp [List.length_take]
    rw [rollingCollect, List.drop_eq_nil_of_le hlen, List.nil_append]
  | succ fuel ih =>
    intro j hj0 hj acc
    rw [rollingCollect, if_pos hj0]
    rcases eq_or_lt_of_le hj0 with h0 | hpos
    · have hj0' : j = 0 := h0.symm
      subst hj0'
      rw [rollingCollect_neg data fuel _ _ (by norm_num)]
      simp only [Int.toNat_zero] at hj ⊢
      have h1 : 0 + 1 - (fuel + 1) = 0 := by omega
      rw [h1, List.drop_zero, List.take_succ, List.take_zero, List.nil_append,
        List.getElem?_eq_getElem hj, List.getD_eq_getElem data 0 hj]
      rfl
    · have htn : (j - 1).toNat = j.toNat - 1 := by omega
      have h01 : (0 : ℤ) ≤ j - 1 := by omega
      have hlt : (j - 1).toNat < data.length := by omega
      rw [ih (j - 1) h01 hlt]
      have hsucc : (j - 1).toNat + 1 = j.toNat := by omega
      rw [hsucc]
      have hstep : (data.take (j.toNat + 1)).drop (j.toNat + 1 - (fuel + 1))
          = (data.take j.toNat).drop (j.toNat - fuel) ++ [data.getD j.toNat 0] := by
        have h2 : j.toNat + 1 - (fuel + 1) = j.toNat - fuel := by omega
        rw [h2, List.take_succ, List.getElem?_eq_getElem hj,
          List.drop_append_of_le_length (by simp [List.length_take]; omega),
          List.getD_eq_getElem data 0 hj]
        rfl
      rw [hstep, List.append_assoc]
      rfl

/-- C8: `Rolling(period).Mean` at row `i` is the arithmetic mean of the
up-to-`period` values ending at row `i`; the window holds
`min period (i+1)` values, so it grows near the start instead of being
padded. In particular, on the values `[1, 2, 3, 4, 5]` with period 5
the means at rows 0 through 4 are `[1, 1.5, 2, 2.5, 3]`. -/
theorem C8_rolling_mean_growing_window (period : ℕ) (data : List ℚ) (i : ℕ)
    (hi : i < data.length) (hp : 0 < period) :
    rollingMean period data i =
      ((data.take (i + 1)).drop (i + 1 - period)).sum /
        ((data.take (i + 1)).drop (i + 1 - period)).length ∧
    ((data.take (i + 1)).drop (i + 1 - period)).length = min period (i + 1) ∧
    rollingMean 5 [1, 2, 3, 4, 5] 0 = 1 ∧
    rollingMean 5 [1, 2, 3, 4, 5] 1 = 3 / 2 ∧
    rollingMean 5 [1, 2, 3, 4, 5] 2 = 2 ∧
    rollingMean 5 [1, 2, 3, 4, 5] 3 = 5 / 2 ∧
    rollingMean 5 [1, 2, 3, 4, 5] 4 = 3 := by
  have hwin : rollingValue period data i = (data.take (i + 1)).drop (i + 1 - period) := by
    unfold rollingValue
    rw [if_pos hi]
    have h := rollingCollect_eq data period (i : ℤ) (by positivity) (by simpa using hi) []
    simpa using h
  have hlen : ((data.take (i + 1)).drop (i + 1 - period)).length = min period (i + 1) := by
    simp only [List.length_drop, List.length_take]
    omega
  have hne : (data.take (i + 1)).drop (i + 1 - period) ≠ [] := by
    rw [← List.length_pos]
    omega
  refine ⟨?_, hlen, ?_, ?_, ?_, ?_, ?_⟩
  · unfold rollingMean
    rw [hwin, if_neg hne]
  all_goals simp [rollingMean, rollingValue, rollingCollect, List.getD, Int.toNat_ofNat]
  all_goals norm_num

/-- Witness for C8 at `period = 5`, `data = [1, 2, 3, 4, 5]`, `i = 2`. -/
theorem C8_rolling_mean_growing_window_witness :
    rollingMean 5 [1, 2, 3, 4, 5] 2 =
      (([1, 2, 3, 4, 5].take (2 + 1)).drop (2 + 1 - 5)).sum /
        (([1, 2, 3, 4, 5].take (2 + 1)).drop (2 + 1 - 5)).length ∧
    (([1, 2, 3, 4, 5].take (2 + 1)).drop (2 + 1 - 5)).length = min 5 (2 + 1) ∧
    rollingMean 5 [1, 2, 3, 4, 5] 0 = 1 ∧
    rollingMean 5 [1, 2, 3, 4, 5] 1 = 3 / 2 ∧
    rollingMean 5 [1, 2, 3, 4, 5] 2 = 2 ∧
    rollingMean 5 [1, 2, 3, 4, 5] 3 = 5 / 2 ∧
    rollingMean 5 [1, 2, 3, 4, 5] 4 = 3 :=
  C8_rolling_mean_growing_window 5 [1, 2, 3, 4, 5] 2 (by norm_num) (by norm_num)

/-! ### C7: zero-spread, zero-slippage round trip preserves NAV -/

theorem sum_map_zero {α : Type _} (l : List α) : (l.map fun _ => (0 : ℚ)).sum = 0 := by
  induction l with
  | nil => rfl
  | cons a l ih => simpa using ih

/-- Folding the order loop over already-fulfilled orders re-appends
them untouched: no fill, no new position, no cash movement. -/
theorem foldl_tickOrdersStep_fulfilled (high low slip : ℚ) (rs : ℕ → ℚ) :
    ∀ (l : List (ℕ × TestOrder)) (acc : List TestOrder × List TestPosition × ℚ),
      (∀ io ∈ l, io.2.fulfilled = true) →
      l.foldl (TestBroker.tickOrdersStep high low slip rs) acc
        = (acc.1 ++ l.map Prod.snd, acc.2.1, acc.2.2) := by
  intro l
  induction l with
  | nil => intro acc _; simp
  | cons io l ih =>
    intro acc h
    rw [List.foldl_cons]
    have hio : io.2.fulfilled = true := h io (List.mem_cons_self io l)
    rw [show TestBroker.tickOrdersStep high low slip rs acc io
        = (acc.1 ++ [io.2], acc.2.1, acc.2.2) by
      unfold TestBroker.tickOrdersStep; rw [if_pos hio]]
    rw [ih _ fun x hx => h x (List.mem_cons_of_mem io hx)]
    simp

/-- A tick's order pass is the identity when every order is already
fulfilled. -/
theorem tickOrders_all_fulfilled (rs : ℕ → ℚ) (b : TestBroker)
    (h : ∀ o ∈ b.orders, o.fulfilled = true) : b.tickOrders rs = b := by
  have hmem : ∀ io ∈ b.orders.enum, io.2.fulfilled = true := by
    intro io hio
    have h2 : io.2 ∈ b.orders.enum.map Prod.snd := List.mem_map_of_mem Prod.snd hio
    rw [List.enum_map_snd] at h2
    exact h io.2 h2
  unfold TestBroker.tickOrders
  rw [foldl_tickOrdersStep_fulfilled _ _ _ _ _ _ hmem]
  simp [List.enum_map_snd]

/-- A position with no take-profit, no stop-loss and no trailing stop
passes through the tick's position pass unchanged and credits
nothing. -/
theorem tickPosition_passive (high low bid ask spread : ℚ) (p : TestPosition)
    (hopen : p.closed = false) (htsd : p.trailingSLDist ≤ 0) (htp : p.takeProfit ≤ 0)
    (hsl : p.stopLoss ≤ 0) (htsl : p.trailingSL ≤ 0) :
    TestBroker.tickPosition high low bid ask spread p = (p, 0, 0) := by
  simp [TestBroker.tickPosition, hopen, not_lt.mpr htsd, not_lt.mpr htp,
    not_lt.mpr hsl, not_lt.mpr htsl]

/-- The position pass is the identity when it moves no position. -/
theorem tickPositions_passive (b : TestBroker)
    (h : ∀ p ∈ b.positions, TestBroker.tickPosition b.currentCandle.high
      b.currentCandle.low b.Bid b.Ask b.spread p = (p, 0, 0)) :
    b.tickPositions = b := by
  unfold TestBroker.tickPositions
  rw [List.map_congr_left h]
  simp only [List.map_map]
  rw [show (Prod.fst ∘ fun p : TestPosition => (p, (0 : ℚ), (0 : ℚ))) = id by rfl]
  rw [show ((fun r : TestPosition × ℚ × ℚ => r.2.1) ∘ fun p : TestPosition =>
      (p, (0 : ℚ), (0 : ℚ))) = fun _ => (0 : ℚ) by rfl]
  rw [show ((fun r : TestPosition × ℚ × ℚ => r.2.2) ∘ fun p : TestPosition =>
      (p, (0 : ℚ), (0 : ℚ))) = fun _ => (0 : ℚ) by rfl]
  simp [sum_map_zero]

/-- Iterating `Advance` over a broker that holds exactly one passive
open position and only fulfilled orders just moves the candle cursor. -/
theorem advance_iter_passive (rs : ℕ → ℚ) (pos : TestPosition)
    (hopen : pos.closed = false) (htsd : pos.trailingSLDist ≤ 0)
    (htp : pos.takeProfit ≤ 0) (hsl : pos.stopLoss ≤ 0) (htsl : pos.trailingSL ≤ 0) :
    ∀ (m : ℕ) (b : TestBroker), b.positions = [pos] →
      (∀ o ∈ b.orders, o.fulfilled = true) →
      ∃ k, (TestBroker.Advance rs)^[m] b = { b with candleCount := k } := by
  intro m
  induction m with
  | zero => intro b _ _; exact ⟨b.candleCount, rfl⟩
  | succ m ih =>
    intro b hbp hbo
    rw [Function.iterate_succ_apply]
    have hstep : TestBroker.Advance rs b = { b with
        candleCount :=
          if b.candleCount < b.data.length then b.candleCount + 1 else b.candleCount } := by
      show TestBroker.Tick rs _ = _
      unfold TestBroker.Tick
      rw [tickOrders_all_fulfilled rs { b with
        candleCount := if b.candleCount < b.data.length then b.candleCount + 1
          else b.candleCount } hbo]
      apply tickPositions_passive
      intro p hp
      have hp2 : p = pos := by
        have hb2 : ({ b with
            candleCount := if b.candleCount < b.data.length then b.candleCount + 1
              else b.candleCount } : TestBroker).positions = [pos] := hbp
        rw [hb2] at hp
        simpa using hp
      subst hp2
      exact tickPosition_passive _ _ _ _ _ p hopen htsd htp hsl htsl
    rw [hstep]
    obtain ⟨k, hk⟩ := ih { b with
      candleCount := if b.candleCount < b.data.length then b.candleCount + 1
        else b.candleCount } hbp hbo
    exact ⟨k, hk⟩

/-- C7: with zero spread and zero slippage configured, buying `N` units
at the market, advancing any number of ticks, and manually closing the
position at an unchanged close price leaves NAV (cash plus open
position value) exactly as it was before the purchase. -/
theorem C7_roundtrip_preserves_nav (b0 : TestBroker) (sym : String) (N r : ℚ)
    (rs : ℕ → ℚ) (m : ℕ)
    (hspread : b0.spread = 0) (hslip : b0.slippage = 0)
    (hord : b0.orders = []) (hpos : b0.positions = [])
    (hN : 0 < N)
    (hclose : ((TestBroker.Advance rs)^[m]
        (b0.Order r OrderType.market sym N 0 0 0).1).currentCandle.close
      = b0.currentCandle.close) :
    ((((TestBroker.Advance rs)^[m]
        (b0.Order r OrderType.market sym N 0 0 0).1).ClosePosition 0).1).NAV
      = b0.NAV := by
  have hb1 : (b0.Order r OrderType.market sym N 0 0 0).1 = { b0 with
      orders := [{
        price := b0.currentCandle.close,
        symbol := sym,
        trailingSL := 0,
        stopLoss := 0,
        takeProfit := 0,
        orderType := OrderType.market,
        units := N,
        fulfilled := true }],
      positions := [{
        closed := false,
        entryPrice := b0.currentCandle.close,
        closePrice := 0,
        closeType := none,
        symbol := sym,
        trailingSL := 0,
        trailingSLDist := 0,
        stopLoss := 0,
        takeProfit := 0,
        units := N }],
      cash := b0.cash - b0.currentCandle.close * N } := by
    unfold TestBroker.Order
    rw [if_neg hN.ne']
    simp [TestOrder.fulfill, TestBroker.Price, TestBroker.Ask, TestBroker.Bid,
      hspread, hslip, hN, TestPosition.EntryValue, hord, hpos]
  rw [hb1] at hclose ⊢
  obtain ⟨k, hk⟩ := advance_iter_passive rs
    { closed := false, entryPrice := b0.currentCandle.close,
      closePrice := 0, closeType := none, symbol := sym, trailingSL := 0,
      trailingSLDist := 0, stopLoss := 0, takeProfit := 0, units := N }
    rfl le_rfl le_rfl le_rfl le_rfl m
    { b0 with
      orders := [{
        price := b0.currentCandle.close,
        symbol := sym,
        trailingSL := 0,
        stopLoss := 0,
        takeProfit := 0,
        orderType := OrderType.market,
        units := N,
        fulfilled := true }],
      positions := [{
        closed := false,
        entryPrice := b0.currentCandle.close,
        closePrice := 0,
        closeType := none,
        symbol := sym,
        trailingSL := 0,
        trailingSLDist := 0,
        stopLoss := 0,
        takeProfit := 0,
        units := N }],
      cash := b0.cash - b0.currentCandle.close * N }
    rfl (by
      intro o ho
      obtain rfl := List.mem_singleton.mp ho
      rfl)
  rw [hk] at hclose ⊢
  have hdec : decide (N < 0) = false := decide_eq_false (not_lt.mpr hN.le)
  unfold TestBroker.ClosePosition
  simp only [List.get?_eq_getElem?, List.getElem?_cons_zero]
  unfold TestPosition.close
  simp only [Bool.false_eq_true, if_false]
  unfold TestBroker.NAV TestPosition.Value
  simp only [hdec, TestBroker.Price, Bool.false_eq_true, if_false, TestBroker.Bid]
  rw [hclose, hpos]
  simp

/-- Witness for C7: starting with 100 in cash and two candles closing
at 1, buy 5 units at tick 0, advance one tick, close; NAV is back to
the NAV before the purchase. -/
theorem C7_roundtrip_preserves_nav_witness :
    let b0 : TestBroker :=
      { cash := 100, spread := 0, slippage := 0,
        data := [⟨1, 1, 1⟩, ⟨1, 1, 1⟩], candleCount := 1,
        orders := [], positions := [], spreadCollectedUSD := 0 }
    ((((TestBroker.Advance fun _ => 0)^[1]
        (b0.Order 0 OrderType.market "EUR_USD" 5 0 0 0).1).ClosePosition 0).1).NAV
      = b0.NAV :=
  C7_roundtrip_preserves_nav _ "EUR_USD" 5 0 (fun _ => 0) 1 rfl rfl rfl rfl
    (by norm_num)
    (by
      norm_num [Function.iterate_one, TestBroker.Order, TestOrder.fulfill,
        TestBroker.Price, TestBroker.Ask, TestBroker.Bid, TestBroker.currentCandle,
        TestBroker.CandleIndex, TestBroker.Advance, TestBroker.Tick,
        TestBroker.tickOrders, TestBroker.tickOrdersStep, TestBroker.tickPositions,
        TestBroker.tickPosition, TestPosition.close, TestPosition.EntryValue,
        TestBroker.orderTriggered, List.enum, List.enumFrom])

/-! ### IndexedSeries: map and binary-search lemmas -/

section IndexedSeriesLemmas

variable {I : Type _} [LinearOrder I] {V : Type _}

theorem mapGet_mapPut (m : List (I × ℕ)) (k : I) (v : ℕ) (k2 : I) :
    mapGet (mapPut m k v) k2 = if k2 = k then some v else mapGet m k2 := by
  induction m with
  | nil =>
    by_cases h : k2 = k
    · subst h; simp [mapPut, mapGet]
    · have h2 : ¬ k = k2 := fun hh => h hh.symm
      simp [mapPut, mapGet, h, h2]
  | cons e m ih =>
    obtain ⟨ek, ev⟩ := e
    by_cases h : ek = k
    · subst h
      by_cases h2 : k2 = ek
      · subst h2; simp [mapPut, mapGet]
      · have h3 : ¬ ek = k2 := fun hh => h2 hh.symm
        simp [mapPut, mapGet, h2, h3]
    · by_cases h2 : k2 = ek
      · subst h2
        have h3 : ¬ k2 = k := h
        simp [mapPut, mapGet, h, h3]
      · have h3 : ¬ ek = k2 := fun hh => h2 hh.symm
        simp [mapPut, mapGet, h, h2, h3, ih]

theorem lowerBound_le_length (l : List I) (key : I) : lowerBound l key ≤ l.length := by
  induction l with
  | nil => simp [lowerBound]
  | cons x xs ih =>
    by_cases h : x < key <;> simp [lowerBound, h] <;> omega

theorem lowerBound_found_iff (l : List I) (key : I) (hs : l.Sorted (· < ·)) :
    l[lowerBound l key]? = some key ↔ key ∈ l := by
  induction l with
  | nil => simp [lowerBound]
  | cons x xs ih =>
    have hx : ∀ y ∈ xs, x < y := List.rel_of_sorted_cons hs
    by_cases h : x < key
    · simp only [lowerBound, if_pos h, List.getElem?_cons_succ, List.mem_cons]
      rw [ih hs.of_cons]
      constructor
      · exact Or.inr
      · rintro (rfl | hm)
        · exact absurd h (lt_irrefl _)
        · exact hm
    · simp only [lowerBound, if_neg h, List.getElem?_cons_zero, List.mem_cons]
      constructor
      · intro hsome
        exact Or.inl (Option.some_injective _ hsome).symm
      · rintro (rfl | hm)
        · rfl
        · exact absurd (hx key hm) h

theorem lowerBound_eq_length_iff (l : List I) (key : I) :
    lowerBound l key = l.length ↔ ∀ x ∈ l, x < key := by
  induction l with
  | nil => simp [lowerBound]
  | cons x xs ih =>
    by_cases h : x < key
    · simp only [lowerBound, if_pos h, List.length_cons, Nat.add_right_cancel_iff, ih,
        List.mem_cons]
      constructor
      · rintro hall y (rfl | hm)
        · exact h
        · exact hall y hm
      · intro hall y hm
        exact hall y (Or.inr hm)
    · simp only [lowerBound, if_neg h, List.length_cons, List.mem_cons]
      constructor
      · intro h0
        exact absurd h0.symm (Nat.succ_ne_zero _)
      · intro hall
        exact absurd (hall x (Or.inl rfl)) h

theorem lowerBound_of_getElem? (l : List I) (key : I) (hs : l.Sorted (· < ·))
    (r : ℕ) (hr : l[r]? = some key) : lowerBound l key = r := by
  induction l generalizing r with
  | nil => simp at hr
  | cons x xs ih =>
    have hx : ∀ y ∈ xs, x < y := List.rel_of_sorted_cons hs
    rcases r with _ | r
    · rw [List.getElem?_cons_zero] at hr
      obtain rfl := Option.some_injective _ hr
      simp [lowerBound, lt_irrefl]
    · rw [List.getElem?_cons_succ] at hr
      have hkey : key ∈ xs := by
        have : r < xs.length := by
          by_contra hge
          rw [List.getElem?_eq_none (Nat.le_of_not_lt hge)] at hr
          exact Option.noConfusion hr
        exact List.mem_iff_getElem.mpr ⟨r, this, by
          have := List.getElem?_eq_getElem this
          rw [this] at hr
          exact Option.some_injective _ hr⟩
      have hlt : x < key := hx key hkey
      simp [lowerBound, hlt, ih hs.of_cons r hr]

/-- Position map of the splice `insertIdx (lowerBound l key) key l`:
rows before the insertion point read the old slice, the insertion point
reads the new key, later rows read the old slice shifted by one. -/
theorem getElem?_insertIdx_lowerBound (l : List I) (key : I) (r : ℕ) :
    (l.insertIdx (lowerBound l key) key)[r]? =
      if r < lowerBound l key then l[r]?
      else if r = lowerBound l key then some key
      else l[r - 1]? := by
  induction l generalizing r with
  | nil =>
    simp only [lowerBound, List.insertIdx_zero]
    rcases r with _ | r
    · simp
    · simp
  | cons x xs ih =>
    by_cases h : x < key
    · simp only [lowerBound, if_pos h, List.insertIdx_succ_cons]
      rcases r with _ | r
      · simp
      · rw [List.getElem?_cons_succ, ih r]
        by_cases h1 : r < lowerBound xs key
        · rw [if_pos h1, if_pos (by omega), List.getElem?_cons_succ]
        · by_cases h2 : r = lowerBound xs key
          · rw [if_neg h1, if_pos h2, if_neg (by omega), if_pos (by omega)]
          · rw [if_neg h1, if_neg h2, if_neg (by omega), if_neg (by omega)]
            have hr1 : r + 1 - 1 = r := by omega
            rw [hr1]
            obtain ⟨s, rfl⟩ : ∃ s, r = s + 1 := ⟨r - 1, by omega⟩
            rw [List.getElem?_cons_succ]
            simp
    · simp only [lowerBound, if_neg h, List.insertIdx_zero]
      rcases r with _ | r
      · simp
      · simp [List.getElem?_cons_succ]

/-- The splice at the lower bound keeps the key slice strictly
ascending when the key is new. -/
theorem sorted_insertIdx_lowerBound (l : List I) (key : I) (hs : l.Sorted (· < ·))
    (hkey : key ∉ l) : (l.insertIdx (lowerBound l key) key).Sorted (· < ·) := by
  induction l with
  | nil => simp [lowerBound]
  | cons x xs ih =>
    have hx := List.rel_of_sorted_cons hs
    by_cases h : x < key
    · rw [lowerBound, if_pos h, List.insertIdx_succ_cons, List.sorted_cons]
      constructor
      · intro y hy
        rw [List.mem_insertIdx (lowerBound_le_length xs key)] at hy
        rcases hy with rfl | hy
        · exact h
        · exact hx y hy
      · exact ih hs.of_cons fun hm => hkey (List.mem_cons_of_mem x hm)
    · rw [lowerBound, if_neg h, List.insertIdx_zero, List.sorted_cons]
      have hkx : key < x :=
        lt_of_le_of_ne (not_lt.mp h) fun he => hkey (he ▸ List.mem_cons_self x xs)
      constructor
      · intro y hy
        rcases List.mem_cons.mp hy with rfl | hy2
        · exact hkx
        · exact lt_trans hkx (hx y hy2)
      · exact hs

theorem drop_insertIdx_lowerBound (l : List I) (key : I) :
    (l.insertIdx (lowerBound l key) key).drop (lowerBound l key + 1)
      = l.drop (lowerBound l key) := by
  induction l with
  | nil => simp [lowerBound]
  | cons x xs ih =>
    by_cases h : x < key
    · rw [lowerBound, if_pos h, List.insertIdx_succ_cons, List.drop_succ_cons,
        List.drop_succ_cons]
      exact ih
    · rw [lowerBound, if_neg h, List.insertIdx_zero, List.drop_succ_cons,
        List.drop_zero]

theorem length_insertIdx_lowerBound (l : List I) (key : I) :
    (l.insertIdx (lowerBound l key) key).length = l.length + 1 :=
  List.length_insertIdx _ l (lowerBound_le_length l key)

/-- Folding `m[k]++` over pairwise distinct keys increments each of
them exactly once. -/
theorem mapGet_foldl_mapIncr (ks : List I) (m : List (I × ℕ)) (k2 : I)
    (hnd : ks.Nodup) :
    mapGet (ks.foldl mapIncr m) k2 =
      if k2 ∈ ks then some ((mapGet m k2).getD 0 + 1) else mapGet m k2 := by
  induction ks generalizing m with
  | nil => simp
  | cons k ks ih =>
    rw [List.foldl_cons, ih _ hnd.of_cons]
    have hknotin : k ∉ ks := (List.nodup_cons.mp hnd).1
    by_cases h : k2 = k
    · subst h
      rw [if_neg hknotin, if_pos (List.mem_cons_self k2 ks), mapIncr, mapGet_mapPut,
        if_pos rfl]
    · rw [mapIncr, mapGet_mapPut, if_neg h]
      by_cases h2 : k2 ∈ ks
      · rw [if_pos h2, if_pos (List.mem_cons_of_mem k h2)]
      · rw [if_neg h2, if_neg (by
          intro hm
          rcases List.mem_cons.mp hm with rfl | hm2
          · exact h rfl
          · exact h2 hm2)]

/-- A fold over `range'` reading rows of `L` is a fold over the
corresponding suffix of `L`. -/
theorem foldl_range'_getD {β : Type _} (f : β → I → β) (d : I) :
    ∀ (n : ℕ) (L : List I) (a : ℕ), L.length - a = n → ∀ (init : β),
      (List.range' a n).foldl (fun m i => f m (L.getD i d)) init
        = (L.drop a).foldl f init := by
  intro n
  induction n with
  | zero =>
    intro L a hn init
    rw [List.drop_eq_nil_of_le (by omega)]
    rfl
  | succ n ih =>
    intro L a hn init
    have ha : a < L.length := by omega
    rw [List.range'_succ, List.foldl_cons, ih L (a + 1) (by omega),
      List.drop_eq_getElem_cons ha, List.foldl_cons, List.getD_eq_getElem L d ha]

theorem getElem?_some_inj (l : List I) (hnd : l.Nodup) {i j : ℕ} {a : I}
    (hi : l[i]? = some a) (hj : l[j]? = some a) : i = j := by
  have hilt : i < l.length := by
    by_contra hge
    rw [List.getElem?_eq_none (Nat.le_of_not_lt hge)] at hi
    exact Option.noConfusion hi
  exact List.getElem?_inj hilt hnd (hi.trans hj.symm)

theorem mem_drop_iff_le_pos (l : List I) (hnd : l.Nodup) (idx p : ℕ) (k2 : I)
    (hlp : l[p]? = some k2) : k2 ∈ l.drop idx ↔ idx ≤ p := by
  constructor
  · intro hm
    obtain ⟨q, hq, he⟩ := List.mem_iff_getElem.mp hm
    have hq2 : (l.drop idx)[q]? = some k2 := by
      rw [List.getElem?_eq_getElem hq, he]
    rw [List.getElem?_drop] at hq2
    have := getElem?_some_inj l hnd hq2 hlp
    omega
  · intro hle
    have hq2 : (l.drop idx)[p - idx]? = some k2 := by
      rw [List.getElem?_drop]
      rw [show idx + (p - idx) = p by omega]
      exact hlp
    have hplt : p - idx < (l.drop idx).length := by
      by_contra hge
      rw [List.getElem?_eq_none (Nat.le_of_not_lt hge)] at hq2
      exact Option.noConfusion hq2
    rw [List.getElem?_eq_getElem hplt] at hq2
    exact (Option.some_injective _ hq2) ▸ List.getElem_mem hplt

/-- `insertIndex` on an existing key just reports its row. -/
theorem insertIndex_found (s : IndexedSeries I V) (key : I)
    (hf : s.indexes[lowerBound s.indexes key]? = some key) :
    s.insertIndex key = (lowerBound s.indexes key, true, s) := by
  unfold IndexedSeries.insertIndex
  rw [if_pos hf]

/-- `insertIndex` on a new key, in one normal form: the append branch
taken when the insertion row is at the end coincides with the splice
branch, so both reduce to a splice of the key slice plus the map update
followed by the increment pass over the shifted suffix. -/
theorem insertIndex_not_found (s : IndexedSeries I V) (key : I)
    (hnf : ¬ s.indexes[lowerBound s.indexes key]? = some key) :
    s.insertIndex key = (lowerBound s.indexes key, false,
      { s with
        indexes := s.indexes.insertIdx (lowerBound s.indexes key) key,
        index := ((s.indexes.insertIdx (lowerBound s.indexes key) key).drop
            (lowerBound s.indexes key + 1)).foldl mapIncr
          (mapPut s.index key (lowerBound s.indexes key)) }) := by
  unfold IndexedSeries.insertIndex
  rw [if_neg hnf]
  have hle := lowerBound_le_length s.indexes key
  by_cases hend : s.indexes.length ≤ lowerBound s.indexes key
  · have heq : lowerBound s.indexes key = s.indexes.length := le_antisymm hle hend
    rw [if_pos hend]
    have happ : s.indexes.insertIdx (lowerBound s.indexes key) key
        = s.indexes ++ [key] := by
      rw [heq, List.insertIdx_length_self]
    rw [happ]
    have hdropnil : (s.indexes ++ [key]).drop (lowerBound s.indexes key + 1) = [] := by
      apply List.drop_eq_nil_of_le
      simp [heq]
    rw [hdropnil]
    rfl
  · rw [if_neg hend]
    dsimp only
    have hconv := foldl_range'_getD (mapIncr (I := I)) key
      ((s.indexes.insertIdx (lowerBound s.indexes key) key).length
        - (lowerBound s.indexes key + 1))
      (s.indexes.insertIdx (lowerBound s.indexes key) key)
      (lowerBound s.indexes key + 1) rfl
      (mapPut s.index key (lowerBound s.indexes key))
    rw [hconv]

/-- `Insert` preserves well-formedness. -/
theorem Insert_WF (s : IndexedSeries I V) (hwf : s.WF) (key : I) (v : V) :
    (s.Insert key v).WF := by
  obtain ⟨hsort, hlen, hiff⟩ := hwf
  by_cases hf : s.indexes[lowerBound s.indexes key]? = some key
  · unfold IndexedSeries.Insert
    rw [insertIndex_found s key hf]
    exact ⟨hsort, by simpa using hlen, hiff⟩
  · have hmem : key ∉ s.indexes := fun hm =>
      hf ((lowerBound_found_iff s.indexes key hsort).mpr hm)
    unfold IndexedSeries.Insert
    rw [insertIndex_not_found s key hf]
    set l := s.indexes with hl
    set idx := lowerBound l key with hidx
    set t := l.insertIdx idx key with ht
    have hnd : l.Nodup := hsort.nodup
    have hdnd : (l.drop idx).Nodup := hnd.sublist (List.drop_sublist idx l)
    have hdropt : t.drop (idx + 1) = l.drop idx := drop_insertIdx_lowerBound l key
    refine ⟨sorted_insertIdx_lowerBound l key hsort hmem, ?_, ?_⟩
    · show (s.values.insertIdx idx v).length = t.length
      rw [List.length_insertIdx idx s.values (hlen ▸ lowerBound_le_length l key),
        length_insertIdx_lowerBound, hlen]
    · intro k2 r
      show mapGet ((t.drop (idx + 1)).foldl mapIncr (mapPut s.index key idx)) k2
          = some r ↔ t[r]? = some k2
      rw [hdropt, mapGet_foldl_mapIncr _ _ _ hdnd, mapGet_mapPut,
        getElem?_insertIdx_lowerBound l key r]
      by_cases hk2 : k2 = key
      · subst hk2
        have hnotdrop : k2 ∉ l.drop idx := fun hm => hmem (List.mem_of_mem_drop hm)
        rw [if_neg hnotdrop, if_pos rfl]
        constructor
        · intro hsome
          obtain rfl := Option.some_injective _ hsome
          rw [if_neg (lt_irrefl idx), if_pos rfl]
        · intro hr
          rcases lt_trichotomy r idx with hcmp | hcmp | hcmp
          · rw [if_pos hcmp] at hr
            exact absurd (List.getElem?_mem hr) hmem
          · rw [hcmp]
          · rw [if_neg (by omega), if_neg (by omega)] at hr
            exact absurd (List.getElem?_mem hr) hmem
      · rw [if_neg hk2]
        rcases hmg : mapGet s.index k2 with _ | p
        · have hnotin : k2 ∉ l := by
            intro hm
            obtain ⟨q, hq, he⟩ := List.mem_iff_getElem.mp hm
            have : mapGet s.index k2 = some q :=
              (hiff k2 q).mpr (by rw [List.getElem?_eq_getElem hq, he])
            rw [hmg] at this
            exact Option.noConfusion this
          have hnotdrop : k2 ∉ l.drop idx := fun hm => hnotin (List.mem_of_mem_drop hm)
          rw [if_neg hnotdrop]
          constructor
          · intro hsome; exact Option.noConfusion hsome
          · intro hr
            rcases lt_trichotomy r idx with hcmp | hcmp | hcmp
            · rw [if_pos hcmp] at hr
              exact absurd (List.getElem?_mem hr) hnotin
            · rw [if_neg (show ¬ r < idx by omega), if_pos hcmp] at hr
              exact absurd (Option.some_injective _ hr) fun he => hk2 he.symm
            · rw [if_neg (by omega), if_neg (by omega)] at hr
              exact absurd (List.getElem?_mem hr) hnotin
        · have hlp : l[p]? = some k2 := (hiff k2 p).mp hmg
          have hmemdrop := mem_drop_iff_le_pos l hnd idx p k2 hlp
          by_cases hpidx : idx ≤ p
          · rw [if_pos (hmemdrop.mpr hpidx)]
            simp only [Option.getD_some]
            constructor
            · intro hsome
              obtain rfl := Option.some_injective _ hsome
              rw [if_neg (by omega), if_neg (by omega)]
              rw [show p + 1 - 1 = p by omega]
              exact hlp
            · intro hr
              rcases lt_trichotomy r idx with hcmp | hcmp | hcmp
              · rw [if_pos hcmp] at hr
                have := getElem?_some_inj l hnd hr hlp
                omega
              · rw [if_neg (by omega), if_pos hcmp] at hr
                exact absurd (Option.some_injective _ hr) fun he => hk2 he.symm
              · rw [if_neg (by omega), if_neg (by omega)] at hr
                have := getElem?_some_inj l hnd hr hlp
                congr 1
                omega
          · rw [if_neg (fun hm => hpidx (hmemdrop.mp hm))]
            constructor
            · intro hsome
              obtain rfl := Option.some_injective _ hsome
              rw [if_pos (by omega)]
              exact hlp
            · intro hr
              rcases lt_trichotomy r idx with hcmp | hcmp | hcmp
              · rw [if_pos hcmp] at hr
                exact congrArg some (getElem?_some_inj l hnd hlp hr)
              · rw [if_neg (by omega), if_pos hcmp] at hr
                exact absurd (Option.some_injective _ hr) fun he => hk2 he.symm
              · rw [if_neg (by omega), if_neg (by omega)] at hr
                have := getElem?_some_inj l hnd hr hlp
                omega

theorem empty_WF : (IndexedSeries.empty I V).WF := by
  refine ⟨List.sorted_nil, rfl, ?_⟩
  intro k r
  simp [IndexedSeries.empty, mapGet]

/-- `Insert` on an already-present key overwrites the value at that
key's row and changes nothing else. -/
theorem Insert_existing (s : IndexedSeries I V) (hwf : s.WF) (key : I) (r : ℕ)
    (hr : mapGet s.index key = some r) (v : V) :
    s.Insert key v = { s with values := s.values.set r v } := by
  obtain ⟨hsort, _, hiff⟩ := hwf
  have hlr : s.indexes[r]? = some key := (hiff key r).mp hr
  have hlb : lowerBound s.indexes key = r := lowerBound_of_getElem? _ key hsort r hlr
  unfold IndexedSeries.Insert
  rw [insertIndex_found s key (by rw [hlb]; exact hlr), if_pos rfl, hlb]

theorem foldl_Insert_WF (ops : List (I × V)) :
    (ops.foldl (fun t kv => t.Insert kv.1 kv.2) (IndexedSeries.empty I V)).WF := by
  suffices h : ∀ s : IndexedSeries I V, s.WF →
      (ops.foldl (fun t kv => t.Insert kv.1 kv.2) s).WF by
    exact h _ empty_WF
  induction ops with
  | nil => intro s hs; exact hs
  | cons kv ops ih =>
    intro s hs
    exact ih _ (Insert_WF s hs kv.1 kv.2)

theorem Insert_mem_indexes (s : IndexedSeries I V) (key : I) (v : V) :
    key ∈ (s.Insert key v).indexes := by
  unfold IndexedSeries.Insert
  by_cases hf : s.indexes[lowerBound s.indexes key]? = some key
  · rw [insertIndex_found s key hf, if_pos rfl]
    exact List.getElem?_mem hf
  · rw [insertIndex_not_found s key hf]
    show key ∈ s.indexes.insertIdx (lowerBound s.indexes key) key
    rw [List.mem_insertIdx (lowerBound_le_length s.indexes key)]
    exact Or.inl rfl

theorem Insert_mem_mono (s : IndexedSeries I V) (key : I) (v : V) (k2 : I)
    (h : k2 ∈ s.indexes) : k2 ∈ (s.Insert key v).indexes := by
  unfold IndexedSeries.Insert
  by_cases hf : s.indexes[lowerBound s.indexes key]? = some key
  · rw [insertIndex_found s key hf, if_pos rfl]
    exact h
  · rw [insertIndex_not_found s key hf]
    show k2 ∈ s.indexes.insertIdx (lowerBound s.indexes key) key
    rw [List.mem_insertIdx (lowerBound_le_length s.indexes key)]
    exact Or.inr h

theorem foldl_Insert_mem_mono (ops : List (I × V)) :
    ∀ (s : IndexedSeries I V) (k2 : I), k2 ∈ s.indexes →
      k2 ∈ (ops.foldl (fun t kv => t.Insert kv.1 kv.2) s).indexes := by
  induction ops with
  | nil => intro s k2 h; exact h
  | cons kv ops ih =>
    intro s k2 h
    exact ih _ k2 (Insert_mem_mono s kv.1 kv.2 k2 h)

theorem foldl_Insert_mem (ops : List (I × V)) :
    ∀ (s : IndexedSeries I V), ∀ kv ∈ ops,
      kv.1 ∈ (ops.foldl (fun t kv => t.Insert kv.1 kv.2) s).indexes := by
  induction ops with
  | nil => intro s kv h; exact absurd h (List.not_mem_nil kv)
  | cons kv0 ops ih =>
    intro s kv h
    rcases List.mem_cons.mp h with rfl | hm
    · exact foldl_Insert_mem_mono ops _ kv.1 (Insert_mem_indexes s kv.1 kv.2)
    · exact ih _ kv hm

end IndexedSeriesLemmas

/-! ### C5: Insert keeps the key slice sorted and the row map a rank map -/

/-- C5: after any sequence of `Insert(key, value)` calls starting from
the empty `IndexedSeries`, the key slice is strictly ascending (hence
duplicate-free), every inserted key is present, `Row(key)` is the key's
rank (its position in that ascending sequence), and an `Insert` of an
already-present key overwrites the stored value at that key's row
leaving the keys and the length unchanged. -/
theorem C5_insert_keeps_ranked_sorted_keys {I V : Type _} [LinearOrder I]
    (ops : List (I × V)) :
    let S : IndexedSeries I V :=
      ops.foldl (fun t kv => t.Insert kv.1 kv.2) (IndexedSeries.empty I V)
    S.indexes.Sorted (· < ·) ∧
    (∀ kv ∈ ops, kv.1 ∈ S.indexes) ∧
    (∀ (i : ℕ) (k : I), S.indexes[i]? = some k → mapGet S.index k = some i) ∧
    (∀ (key : I) (r : ℕ) (v : V), mapGet S.index key = some r →
      (S.Insert key v).indexes = S.indexes ∧
      (S.Insert key v).values.length = S.values.length ∧
      (S.Insert key v).values = S.values.set r v) := by
  intro S
  obtain ⟨hsort, hlen, hiff⟩ := foldl_Insert_WF ops
  refine ⟨hsort, fun kv h => foldl_Insert_mem ops _ kv h, ?_, ?_⟩
  · intro i k hik
    exact (hiff k i).mpr hik
  · intro key r v hr
    have he := Insert_existing S ⟨hsort, hlen, hiff⟩ key r hr v
    rw [he]
    exact ⟨rfl, by simp, rfl⟩

/-- Witness for C5 with the inserts (2 ↦ 10), (1 ↦ 20), (2 ↦ 30) over
integer keys: keys end up `[1, 2]`, ranks are 0 and 1, and re-inserting
key 2 overwrites row 1 in place. -/
theorem C5_insert_keeps_ranked_sorted_keys_witness :
    let S := ([((2 : ℤ), (10 : ℚ)), (1, 20), (2, 30)]).foldl
      (fun t kv => t.Insert kv.1 kv.2) (IndexedSeries.empty ℤ ℚ)
    S.indexes.Sorted (· < ·) ∧
    mapGet S.index 1 = some 0 ∧
    mapGet S.index 2 = some 1 ∧
    (S.Insert 2 40).values.length = S.values.length := by
  intro S
  have h := C5_insert_keeps_ranked_sorted_keys [((2 : ℤ), (10 : ℚ)), (1, 20), (2, 30)]
  refine ⟨h.1, h.2.2.1 0 1 (by decide), h.2.2.1 1 2 (by decide), ?_⟩
  exact (h.2.2.2 2 1 40 (by decide)).2.1

/-! ### C6: ShiftIndex leaves the key→row map double-stepped -/

/-- C6: evaluation of the embedded `ShiftIndex` at a concrete input.
Build the one-row series `0 ↦ 5` with `Insert`, then call
`ShiftIndex(1, step = key + amt)`. The key slice is correctly
relabelled to `[1]` and no value moves, but the final key→row map holds
the doubly-stepped key `2` instead of `1`: looking up the relabelled
key `1` finds no row (`Row` returns −1 and `ValueIndex` returns nil),
so afterwards `Row(Index(0)) = −1 ≠ 0` — the map is no longer
consistent with the key order. -/
theorem C6_shiftindex_map_double_stepped :
    let s0 : IndexedSeries ℤ ℚ := (IndexedSeries.empty ℤ ℚ).Insert 0 5
    let s1 : IndexedSeries ℤ ℚ := s0.ShiftIndex 1 fun k n => k + n
    s0.indexes = [0] ∧ mapGet s0.index 0 = some 0 ∧
    s1.indexes = [1] ∧ s1.values = s0.values ∧
    mapGet s1.index 1 = none ∧ mapGet s1.index 2 = some 0 ∧
    s1.Row 1 = -1 ∧ s1.ValueIndex 1 = none ∧ s1.Index 0 = some 1 := by
  decide

/-! ### C10: Sub combines shared keys by division -/

section SubLemmas

variable {I : Type _} [LinearOrder I]

theorem subStep_foldl_untouched (other : IndexedSeries I ℚ) :
    ∀ (entries : List (I × ℕ)) (vals : List ℚ) (r : ℕ),
      r ∉ entries.map Prod.snd →
      (entries.foldl (IndexedSeries.subStep other) vals).getD r 0 = vals.getD r 0 := by
  intro entries
  induction entries with
  | nil => intro vals r _; rfl
  | cons e rest ih =>
    intro vals r hr
    rw [List.map_cons] at hr
    have hr2 : r ∉ rest.map Prod.snd := fun hm => hr (List.mem_cons_of_mem _ hm)
    have hne : e.2 ≠ r := fun he => hr (he ▸ List.mem_cons_self e.2 _)
    rw [List.foldl_cons, ih _ r hr2]
    unfold IndexedSeries.subStep
    rcases hmg : mapGet other.index e.1 with _ | orow
    · rfl
    · rw [List.getD_eq_getElem?_getD, List.getElem?_set_ne hne,
        ← List.getD_eq_getElem?_getD]

theorem subStep_foldl_length (other : IndexedSeries I ℚ) :
    ∀ (entries : List (I × ℕ)) (vals : List ℚ),
      (entries.foldl (IndexedSeries.subStep other) vals).length = vals.length := by
  intro entries
  induction entries with
  | nil => intro vals; rfl
  | cons e rest ih =>
    intro vals
    rw [List.foldl_cons, ih]
    unfold IndexedSeries.subStep
    rcases hmg : mapGet other.index e.1 with _ | orow
    · rfl
    · exact List.length_set vals e.2 _

theorem subStep_foldl_hit (other : IndexedSeries I ℚ) :
    ∀ (entries : List (I × ℕ)) (vals : List ℚ) (k : I) (ra rb : ℕ),
      (entries.map Prod.snd).Nodup → (k, ra) ∈ entries → ra < vals.length →
      mapGet other.index k = some rb →
      (entries.foldl (IndexedSeries.subStep other) vals).getD ra 0
        = vals.getD ra 0 / other.values.getD rb 0 := by
  intro entries
  induction entries with
  | nil =>
    intro vals k ra rb _ hmem _ _
    exact absurd hmem (List.not_mem_nil _)
  | cons e rest ih =>
    intro vals k ra rb hnd hmem hra hb
    rw [List.map_cons] at hnd
    rw [List.foldl_cons]
    rcases List.mem_cons.mp hmem with heq | hm
    · obtain rfl : e = (k, ra) := heq.symm
      have hrest : ra ∉ rest.map Prod.snd := (List.nodup_cons.mp hnd).1
      rw [subStep_foldl_untouched other rest _ ra hrest]
      unfold IndexedSeries.subStep
      simp only [hb]
      rw [List.getD_eq_getElem?_getD, List.getElem?_set_self hra]
      rfl
    · have hra2 : ra ∈ rest.map Prod.snd := List.mem_map_of_mem Prod.snd hm
      have hhead : e.2 ∉ rest.map Prod.snd := (List.nodup_cons.mp hnd).1
      have he2 : e.2 ≠ ra := fun he => hhead (he ▸ hra2)
      have hgd : (IndexedSeries.subStep other vals e).getD ra 0 = vals.getD ra 0 := by
        unfold IndexedSeries.subStep
        rcases hmg : mapGet other.index e.1 with _ | orow
        · rfl
        · rw [List.getD_eq_getElem?_getD, List.getElem?_set_ne he2,
            ← List.getD_eq_getElem?_getD]
      have hlen2 : ra < (IndexedSeries.subStep other vals e).length := by
        unfold IndexedSeries.subStep
        rcases hmg : mapGet other.index e.1 with _ | orow
        · exact hra
        · rw [List.length_set]; exact hra
      rw [ih _ k ra rb (List.nodup_cons.mp hnd).2 hm hlen2 hb, hgd]

theorem subStep_foldl_absent (other : IndexedSeries I ℚ) :
    ∀ (entries : List (I × ℕ)) (vals : List ℚ) (k2 : I) (r2 : ℕ),
      (entries.map Prod.snd).Nodup → (k2, r2) ∈ entries →
      mapGet other.index k2 = none →
      (entries.foldl (IndexedSeries.subStep other) vals).getD r2 0
        = vals.getD r2 0 := by
  intro entries
  induction entries with
  | nil =>
    intro vals k2 r2 _ hmem _
    exact absurd hmem (List.not_mem_nil _)
  | cons e rest ih =>
    intro vals k2 r2 hnd hmem hb
    rw [List.map_cons] at hnd
    rw [List.foldl_cons]
    rcases List.mem_cons.mp hmem with heq | hm
    · obtain rfl : e = (k2, r2) := heq.symm
      have hrest : r2 ∉ rest.map Prod.snd := (List.nodup_cons.mp hnd).1
      rw [subStep_foldl_untouched other rest _ r2 hrest]
      unfold IndexedSeries.subStep
      simp only [hb]
    · have hra2 : r2 ∈ rest.map Prod.snd := List.mem_map_of_mem Prod.snd hm
      have hhead : e.2 ∉ rest.map Prod.snd := (List.nodup_cons.mp hnd).1
      have he2 : e.2 ≠ r2 := fun he => hhead (he ▸ hra2)
      have hgd : (IndexedSeries.subStep other vals e).getD r2 0 = vals.getD r2 0 := by
        unfold IndexedSeries.subStep
        rcases hmg : mapGet other.index e.1 with _ | orow
        · rfl
        · rw [List.getD_eq_getElem?_getD, List.getElem?_set_ne he2,
            ← List.getD_eq_getElem?_getD]
      rw [ih _ k2 r2 (List.nodup_cons.mp hnd).2 hm hb, hgd]

end SubLemmas

/-- C10: `a.Sub(b)` stores, at the row of every key `k` that both
series hold, the quotient `a(k) / b(k)` of the two values — a division,
not a difference — while the value at any key of `a` that `b` lacks,
and the key structure of `a`, are left untouched. -/
theorem C10_sub_divides_shared_keys {I : Type _} [LinearOrder I]
    (s other : IndexedSeries I ℚ) (hnd : (s.index.map Prod.snd).Nodup) :
    (∀ (k : I) (ra rb : ℕ), (k, ra) ∈ s.index → ra < s.values.length →
      mapGet other.index k = some rb →
      (s.Sub other).values.getD ra 0
        = s.values.getD ra 0 / other.values.getD rb 0) ∧
    (∀ (k2 : I) (r2 : ℕ), (k2, r2) ∈ s.index →
      mapGet other.index k2 = none →
      (s.Sub other).values.getD r2 0 = s.values.getD r2 0) ∧
    (s.Sub other).indexes = s.indexes ∧
    (s.Sub other).values.length = s.values.length := by
  refine ⟨?_, ?_, rfl, subStep_foldl_length other s.index s.values⟩
  · intro k ra rb hmem hra hb
    exact subStep_foldl_hit other s.index s.values k ra rb hnd hmem hra hb
  · intro k2 r2 hmem hb
    exact subStep_foldl_absent other s.index s.values k2 r2 hnd hmem hb

/-- Witness for C10: `a` holds 1 ↦ 10 and 2 ↦ 9, `b` holds 1 ↦ 4; after
`a.Sub(b)` row 0 holds `10 / 4` (the quotient, not the difference `6`)
and row 1 still holds 9. -/
theorem C10_sub_divides_shared_keys_witness :
    let a := ([((1 : ℤ), (10 : ℚ)), (2, 9)]).foldl
      (fun t kv => t.Insert kv.1 kv.2) (IndexedSeries.empty ℤ ℚ)
    let b := ([((1 : ℤ), (4 : ℚ))]).foldl
      (fun t kv => t.Insert kv.1 kv.2) (IndexedSeries.empty ℤ ℚ)
    (a.Sub b).values.getD 0 0 = a.values.getD 0 0 / b.values.getD 0 0 ∧
    (a.Sub b).values.getD 1 0 = a.values.getD 1 0 ∧
    (a.Sub b).indexes = a.indexes := by
  intro a b
  have h := C10_sub_divides_shared_keys a b (by decide)
  exact ⟨h.1 1 0 0 (by decide) (by decide) (by decide),
    h.2.1 2 1 (by decide) (by decide), h.2.2.1⟩

end Autotrader
